import Mathlib

/-
Verification of the selfie attribute-change-tracking library.

The engine (decorator, attribute interceptor, container proxy, history
store, query API) is modelled here as a state-transition system; the
repository tests in tests/test_selfie.py pin its observable behaviour,
and the design document describes the components. Python values that can
be stored in tracked attributes are modelled by the inductive type
Value; an instrumented instance is a State carrying its configuration,
its current attribute table, its insertion-ordered history log and a
monotone clock standing in for wall-clock timestamps.

Note on field names: the record fields called from and to in the
library are called fromVal and toVal here, because from is a reserved
word in Lean. The tests assert history[0]["from"] is None, so the
absent marker of the modelled engine is Value.none, exactly as the
tests require.
-/

namespace Selfie

/-- Modelled from the spec: the values storable in tracked attributes —
scalars (null, booleans, integers, strings) and the two container kinds
(sequences and insertion-ordered string-keyed mappings) that the
container proxy wraps. -/
inductive Value where
  | none : Value
  | bool (b : Bool) : Value
  | int (n : Int) : Value
  | str (s : String) : Value
  | list (xs : List Value) : Value
  | dict (ps : List (String × Value)) : Value

/-- Modelled from the spec: one immutable history entry with fields
time, attr, from and to (the latter two spelled fromVal and toVal). -/
structure ChangeRecord where
  time : Nat
  attr : String
  fromVal : Value
  toVal : Value

/-- Default record used only as the fallback of List.getD in
statements about concrete history indices. -/
def defRec : ChangeRecord :=
  { time := 0, attr := "", fromVal := Value.none, toVal := Value.none }

/-- Build one ChangeRecord from its four fields. -/
def mkRec (t : Nat) (a : String) (fv tv : Value) : ChangeRecord :=
  { time := t, attr := a, fromVal := fv, toVal := tv }

/-- Modelled from the spec: decorator configuration; track_private
defaults to false and bare decoration is equivalent to that default. -/
structure Config where
  track_private : Bool

/-- Modelled from the spec: the whole observable state of one
instrumented instance — its configuration, its current attribute
table (insertion ordered), its flat history log and a clock that
stands in for the wall-clock timestamps of records. -/
structure State where
  config : Config
  attrs : List (String × Value)
  history : List ChangeRecord
  clock : Nat

/-- Modelled from the spec: a freshly constructed instance has an empty
attribute table and an empty history store of its own. -/
def initState (cfg : Config) : State :=
  { config := cfg, attrs := [], history := [], clock := 0 }

/-- Ordered association-list lookup: the value bound to the first
occurrence of the key, if any. -/
def lookupPairs {α : Type} (l : List (String × α)) (k : String) : Option α :=
  match l with
  | [] => Option.none
  | p :: rest => if p.1 == k then some p.2 else lookupPairs rest k

/-- Ordered association-list update with insertion-ordered mapping
semantics: an existing key keeps its position, a new key is appended. -/
def assocSet (l : List (String × Value)) (k : String) (v : Value) :
    List (String × Value) :=
  match l with
  | [] => [(k, v)]
  | p :: rest => if p.1 == k then (k, v) :: rest else p :: assocSet rest k v

/-- Ordered association-list deletion of the first occurrence of a key. -/
def assocDel (l : List (String × Value)) (k : String) :
    List (String × Value) :=
  match l with
  | [] => []
  | p :: rest => if p.1 == k then rest else p :: assocDel rest k

/-- An attribute name follows the private naming convention when its
first character is an underscore. -/
def isPrivateName (name : String) : Bool :=
  match name.data with
  | [] => false
  | c :: _ => c == '_'

/-- Modelled from the spec: the privacy filter — an attribute is tracked
unless its name starts with the private-naming convention underscore
and track_private is off. -/
def tracked (cfg : Config) (name : String) : Bool :=
  cfg.track_private || !(isPrivateName name)

/-- Current stored value of an attribute, if it exists. -/
def lookupAttr (s : State) (name : String) : Option Value :=
  lookupPairs s.attrs name

/-- Append one ChangeRecord to the history store, stamping it with the
current clock and advancing the clock. -/
def pushRecord (s : State) (name : String) (fv tv : Value) : State :=
  { s with
    history := s.history ++ [mkRec s.clock name fv tv],
    clock := s.clock + 1 }

/-- Modelled from the spec: the attribute interceptor — every write to a
tracked attribute snapshots the old value (Value.none when absent, as
the tests require), stores the new value, and appends one record; a
filtered attribute is stored with no recording at all. -/
def setAttr (s : State) (name : String) (v : Value) : State :=
  let old := lookupAttr s name
  let s1 := { s with attrs := assocSet s.attrs name v }
  if tracked s.config name then pushRecord s1 name (old.getD Value.none) v
  else s1

/-- Modelled from the spec: the container-proxy recording hook — a
mutating container operation on an attribute reads the whole current
value, applies the mutation, stores the result, and appends exactly one
record from the whole pre-mutation value to the whole post-mutation
value; a failing operation mutates nothing and records nothing, and an
untracked attribute holds a raw, unproxied container whose mutation is
performed silently. -/
def mutateAttr (s : State) (name : String) (f : Value → Option Value) :
    State :=
  match lookupAttr s name with
  | Option.none => s
  | some pre =>
    match f pre with
    | Option.none => s
    | some post =>
      let s1 := { s with attrs := assocSet s.attrs name post }
      if tracked s.config name then pushRecord s1 name pre post
      else s1

/-- Resolve a possibly negative sequence index the way the underlying
language does: negative indices count from the end, and anything out of
range is an error. -/
def pyIndex (n : Nat) (i : Int) : Option Nat :=
  let j : Int := if i < 0 then i + (n : Int) else i
  if 0 ≤ j ∧ j < (n : Int) then some j.toNat else Option.none

/-- The popped element and the remaining list of a sequence pop at a
(possibly negative) index, exactly as the unwrapped operation. -/
def listPopPair (xs : List Value) (i : Int) : Option (Value × List Value) :=
  match pyIndex xs.length i with
  | Option.none => Option.none
  | some j =>
    match xs[j]? with
    | Option.none => Option.none
    | some x => some (x, xs.take j ++ xs.drop (j + 1))

/-- Item assignment on a sequence value; fails on a non-sequence or an
out-of-range index. -/
def listSetF (i : Int) (v : Value) : Value → Option Value
  | Value.list xs => (pyIndex xs.length i).map (fun j => Value.list (xs.set j v))
  | _ => Option.none

/-- Append on a sequence value. -/
def listAppendF (v : Value) : Value → Option Value
  | Value.list xs => some (Value.list (xs ++ [v]))
  | _ => Option.none

/-- The state effect of a sequence pop: the list with the element at the
resolved index removed. -/
def popF (i : Int) : Value → Option Value
  | Value.list xs => (listPopPair xs i).map (fun p => Value.list p.2)
  | _ => Option.none

/-- Key presence in an ordered association list. -/
def containsKey (l : List (String × Value)) (k : String) : Bool :=
  (lookupPairs l k).isSome

/-- Item assignment or insertion on a mapping value. -/
def dictSetF (k : String) (v : Value) : Value → Option Value
  | Value.dict ps => some (Value.dict (assocSet ps k v))
  | _ => Option.none

/-- Item deletion on a mapping value; fails on a missing key. -/
def dictDelF (k : String) : Value → Option Value
  | Value.dict ps =>
    if containsKey ps k then some (Value.dict (assocDel ps k))
    else Option.none
  | _ => Option.none

/-- Modelled from the spec: the externally invokable state changes of one
instance — a top-level attribute assignment, and the proxied mutating
container operations (item assignment, append, pop with and without an
index, mapping item assignment or insertion, mapping item deletion). -/
inductive Op where
  | assign (name : String) (v : Value)
  | listSet (name : String) (i : Int) (v : Value)
  | listAppend (name : String) (v : Value)
  | listPop (name : String) (i : Int)
  | listPopLast (name : String)
  | dictSet (name : String) (k : String) (v : Value)
  | dictDel (name : String) (k : String)

/-- Modelled from the spec: the state transition of one operation; the
no-argument pop form pops the last element (index -1). -/
def step (s : State) : Op → State
  | Op.assign n v => setAttr s n v
  | Op.listSet n i v => mutateAttr s n (listSetF i v)
  | Op.listAppend n v => mutateAttr s n (listAppendF v)
  | Op.listPop n i => mutateAttr s n (popF i)
  | Op.listPopLast n => mutateAttr s n (popF (-1))
  | Op.dictSet n k v => mutateAttr s n (dictSetF k v)
  | Op.dictDel n k => mutateAttr s n (dictDelF k)

/-- Run a sequence of operations from a given state. -/
def runFrom (s : State) (ops : List Op) : State :=
  ops.foldl step s

/-- Run a sequence of operations on a freshly constructed instance. -/
def run (cfg : Config) (ops : List Op) : State :=
  runFrom (initState cfg) ops

/-- The container mutation performed by an operation, when it is one:
the owning attribute name and the whole-value transformation. An
attribute assignment is not a container mutation. -/
def mutOf : Op → Option (String × (Value → Option Value))
  | Op.assign _ _ => Option.none
  | Op.listSet n i v => some (n, listSetF i v)
  | Op.listAppend n v => some (n, listAppendF v)
  | Op.listPop n i => some (n, popF i)
  | Op.listPopLast n => some (n, popF (-1))
  | Op.dictSet n k v => some (n, dictSetF k v)
  | Op.dictDel n k => some (n, dictDelF k)

/-- The value returned by a proxied pop call, exactly the element the
unwrapped operation would return. -/
def popRet (s : State) (name : String) (i : Int) : Option Value :=
  match lookupAttr s name with
  | some (Value.list xs) => (listPopPair xs i).map (fun p => p.1)
  | _ => Option.none

/-- Modelled from the spec: an index-like custom object, carrying the
integer its dunder index method resolves to. -/
structure CustomIndex where
  __index__ : Int

/-- A pop call whose argument is an index-like object: the argument is
resolved to its integer index and the ordinary pop runs. -/
def popRetIndexLike (s : State) (name : String) (c : CustomIndex) : Option Value :=
  popRet s name c.__index__

/-- The state transition of a pop call with an index-like argument. -/
def stepPopIndexLike (s : State) (name : String) (c : CustomIndex) : State :=
  step s (Op.listPop name c.__index__)

/-- Modelled from the spec: the error taxonomy of the query API. -/
inductive SelfieError where
  | invalidArgument (msg : String)

/-- Modelled from the spec: the two output shapes of the query API. -/
inductive QueryResult where
  | flat (records : List ChangeRecord)
  | byAttr (table : List (String × List ChangeRecord))

/-- The ordered record subsequence of one attribute: the flat log
filtered to that attribute name. -/
def histFor (s : State) (a : String) : List ChangeRecord :=
  s.history.filter (fun r => r.attr == a)

/-- Append a key to a key list unless already present (first-appearance
order). -/
def insertKey (ks : List String) (k : String) : List String :=
  if ks.contains k then ks else ks ++ [k]

/-- The attribute names appearing in a log, in order of first
appearance. -/
def keysOf (h : List ChangeRecord) : List String :=
  h.foldl (fun ks r => insertKey ks r.attr) []

/-- The attr view: a mapping from each attribute name appearing in the
log to its ordered record subsequence. -/
def attrView (h : List ChangeRecord) : List (String × List ChangeRecord) :=
  (keysOf h).map (fun k => (k, h.filter (fun r => r.attr == k)))

/-- The message of the invalid-format error, as the tests match it. -/
def formatErrorMsg : String := "format must be \x27flat\x27 or \x27attr\x27"

/-- Modelled from the spec: the query API get_change_history. The format
argument (whose default in the library is flat, modelled by passing
flat explicitly) must be flat or attr, anything else is an
InvalidArgument error; with an attr argument the result is that
attribute's ordered record subsequence; with no attr argument the
result is the whole flat log or the attr view, by format. -/
def get_change_history (s : State) (attr : Option String) (format : String) :
    Except SelfieError QueryResult :=
  if format = "flat" ∨ format = "attr" then
    match attr with
    | some a => Except.ok (QueryResult.flat (histFor s a))
    | Option.none =>
      if format = "flat" then Except.ok (QueryResult.flat s.history)
      else Except.ok (QueryResult.byAttr (attrView s.history))
  else Except.error (SelfieError.invalidArgument formatErrorMsg)

/-- Modelled from the spec: a world of several instrumented instances of
the same or different decorated classes, addressed by creation index. -/
inductive WOp where
  | newInst (cfg : Config)
  | act (i : Nat) (o : Op)

/-- World transition: creating an instance appends a fresh state with
its own history store; acting on instance i steps only that state. -/
def stepW (w : List State) : WOp → List State
  | WOp.newInst cfg => w ++ [initState cfg]
  | WOp.act i o =>
    match w[i]? with
    | some s => w.set i (step s o)
    | Option.none => w

/-- Run a sequence of world operations. -/
def runW (w : List State) (ops : List WOp) : List State :=
  ops.foldl stepW w

/-- The operations a world run performs on instance j, in order. -/
def opsFor (j : Nat) (ops : List WOp) : List Op :=
  ops.filterMap (fun wo =>
    match wo with
    | WOp.act i o => if i = j then some o else Option.none
    | WOp.newInst _ => Option.none)

/-- The history records of one attribute form a chain whose first record
starts from the given value and where each later record starts from the
previous record's destination. -/
def chainFrom : Value → List ChangeRecord → Prop
  | _, [] => True
  | v, r :: rs => r.fromVal = v ∧ chainFrom r.toVal rs

/-- The destination of the last record of a chain, or the given value
for an empty chain. -/
def lastTo : Value → List ChangeRecord → Value
  | v, [] => v
  | _, r :: rs => lastTo r.toVal rs

/-- The invariant tying a state's history to its attribute table: every
attribute's record subsequence is a chain starting at Value.none, and
for a tracked attribute the current stored value (Value.none when
absent) is the destination of its last record. -/
def ChainInv (s : State) : Prop :=
  ∀ a : String,
    chainFrom Value.none (histFor s a) ∧
    (tracked s.config a = true →
      (lookupAttr s a).getD Value.none = lastTo Value.none (histFor s a))

/-- Configuration of a bare decoration: the privacy filter is on by
default. -/
def cfgDefault : Config := { track_private := false }

/-- The operation list of a simple two-write scenario on one attribute. -/
def chainOps : List Op :=
  [Op.assign "x" (Value.int 1), Op.assign "x" (Value.int 2)]

/-- An instance holding a tracked one-element sequence attribute. -/
def c2Base : State :=
  run cfgDefault [Op.assign "xs" (Value.list [Value.int 1])]

/-- An instance with two tracked scalar attributes. -/
def c5State : State :=
  run cfgDefault [Op.assign "x" (Value.int 1), Op.assign "y" (Value.int 2)]

/-- The list scenario of the tests: items starts as [1, 2, 3]. -/
def listStart : State :=
  run cfgDefault
    [Op.assign "items" (Value.list [Value.int 1, Value.int 2, Value.int 3])]

/-- The pop scenario of the tests: items starts as [1, 2, 3, 4, 5]. -/
def popStart : State :=
  run cfgDefault
    [Op.assign "items" (Value.list
      [Value.int 1, Value.int 2, Value.int 3, Value.int 4, Value.int 5])]

/-- The pop scenario after the no-argument pop call. -/
def popAfterLast : State := step popStart (Op.listPopLast "items")

/-- The pop scenario after the following pop call at index 0. -/
def popAfterZero : State := step popAfterLast (Op.listPop "items" 0)

/-- The pop scenario after the final pop call with an index-like
argument resolving to 0. -/
def popAfterIndexLike : State :=
  stepPopIndexLike popAfterZero "items" { __index__ := 0 }

/-- An instance decorated with track_private on and one private
attribute already written. -/
def privBase : State :=
  run { track_private := true } [Op.assign "_p" (Value.int 1)]

/-- A world of two instances of the same decorated class. -/
def world0 : List State := [initState cfgDefault, initState cfgDefault]

/-- Interleaved writes to the two instances of world0. -/
def wops0 : List WOp :=
  [WOp.act 0 (Op.assign "value" (Value.int 10)),
   WOp.act 1 (Op.assign "value" (Value.int 20))]

theorem lookupPairs_assocSet_self (l : List (String × Value)) (k : String)
    (v : Value) : lookupPairs (assocSet l k v) k = some v := by
  induction l with
  | nil => simp [assocSet, lookupPairs]
  | cons p rest ih =>
    by_cases h : p.1 = k
    · simp [assocSet, lookupPairs, h]
    · simp [assocSet, lookupPairs, h, ih]

theorem lookupPairs_assocSet_ne (l : List (String × Value)) (k k' : String)
    (v : Value) (h : k' ≠ k) :
    lookupPairs (assocSet l k v) k' = lookupPairs l k' := by
  induction l with
  | nil => simp [assocSet, lookupPairs, Ne.symm h]
  | cons p rest ih =>
    by_cases hp : p.1 = k
    · simp [assocSet, lookupPairs, hp, h, Ne.symm h]
    · simp [assocSet, lookupPairs, hp, ih]

theorem chainFrom_append (v : Value) (h : List ChangeRecord)
    (r : ChangeRecord) :
    chainFrom v (h ++ [r]) ↔ chainFrom v h ∧ r.fromVal = lastTo v h := by
  induction h generalizing v with
  | nil => simp [chainFrom, lastTo]
  | cons q rest ih => simp [chainFrom, lastTo, ih, and_assoc]

theorem lastTo_append (v : Value) (h : List ChangeRecord) (r : ChangeRecord) :
    lastTo v (h ++ [r]) = r.toVal := by
  induction h generalizing v with
  | nil => simp [lastTo]
  | cons q rest ih => simp [lastTo, ih]

theorem chainFrom_head (v : Value) (h : List ChangeRecord)
    (hc : chainFrom v h) (h0 : 0 < h.length) :
    (h.getD 0 defRec).fromVal = v := by
  cases h with
  | nil => simp at h0
  | cons r rs => simpa [List.getD] using hc.1

theorem chainFrom_chain (v : Value) (h : List ChangeRecord)
    (hc : chainFrom v h) :
    ∀ i : Nat, i + 1 < h.length →
      (h.getD (i + 1) defRec).fromVal = (h.getD i defRec).toVal := by
  induction h generalizing v with
  | nil => intro i hi; simp at hi
  | cons r rs ih =>
    intro i hi
    obtain ⟨h1, h2⟩ := hc
    cases i with
    | zero =>
      have : 0 < rs.length := by simpa using Nat.lt_of_succ_lt_succ hi
      simpa [List.getD] using chainFrom_head r.toVal rs h2 this
    | succ j =>
      have : j + 1 < rs.length := by simpa using Nat.lt_of_succ_lt_succ hi
      simpa [List.getD] using ih r.toVal h2 j this

theorem setAttr_config (s : State) (n : String) (v : Value) :
    (setAttr s n v).config = s.config := by
  by_cases ht : tracked s.config n = true <;> simp [setAttr, pushRecord, ht]

theorem setAttr_attrs (s : State) (n : String) (v : Value) :
    (setAttr s n v).attrs = assocSet s.attrs n v := by
  by_cases ht : tracked s.config n = true <;> simp [setAttr, pushRecord, ht]

theorem setAttr_history (s : State) (n : String) (v : Value) :
    (setAttr s n v).history =
      if tracked s.config n = true then
        s.history ++ [mkRec s.clock n ((lookupAttr s n).getD Value.none) v]
      else s.history := by
  by_cases ht : tracked s.config n = true <;> simp [setAttr, pushRecord, ht]

theorem mutateAttr_eq_of_lookup_none (s : State) (n : String)
    (f : Value → Option Value) (hl : lookupAttr s n = Option.none) :
    mutateAttr s n f = s := by
  simp [mutateAttr, hl]

theorem mutateAttr_eq_of_fail (s : State) (n : String)
    (f : Value → Option Value) (pre : Value) (hl : lookupAttr s n = some pre)
    (hf : f pre = Option.none) : mutateAttr s n f = s := by
  simp [mutateAttr, hl, hf]

theorem mutateAttr_config (s : State) (n : String) (f : Value → Option Value) :
    (mutateAttr s n f).config = s.config := by
  cases hl : lookupAttr s n with
  | none => simp [mutateAttr, hl]
  | some pre =>
    cases hf : f pre with
    | none => simp [mutateAttr, hl, hf]
    | some post =>
      by_cases ht : tracked s.config n = true <;>
        simp [mutateAttr, hl, hf, pushRecord, ht]

theorem mutateAttr_attrs (s : State) (n : String) (f : Value → Option Value)
    (pre post : Value) (hl : lookupAttr s n = some pre)
    (hf : f pre = some post) :
    (mutateAttr s n f).attrs = assocSet s.attrs n post := by
  by_cases ht : tracked s.config n = true <;>
    simp [mutateAttr, hl, hf, pushRecord, ht]

theorem mutateAttr_history (s : State) (n : String) (f : Value → Option Value)
    (pre post : Value) (hl : lookupAttr s n = some pre)
    (hf : f pre = some post) :
    (mutateAttr s n f).history =
      if tracked s.config n = true then
        s.history ++ [mkRec s.clock n pre post]
      else s.history := by
  by_cases ht : tracked s.config n = true <;>
    simp [mutateAttr, hl, hf, pushRecord, ht]

theorem histFor_of_history_append (s s' : State) (r : ChangeRecord)
    (hh : s'.history = s.history ++ [r]) (a : String) :
    histFor s' a = histFor s a ++ if r.attr = a then [r] else [] := by
  simp [histFor, hh, List.filter_append, List.filter_singleton, beq_iff_eq]

theorem chainInv_push (s : State) (n : String) (w : Value) (s' : State)
    (hcfg : s'.config = s.config)
    (hattrs : s'.attrs = assocSet s.attrs n w)
    (hhist : s'.history =
      if tracked s.config n = true then
        s.history ++ [mkRec s.clock n ((lookupAttr s n).getD Value.none) w]
      else s.history)
    (h : ChainInv s) : ChainInv s' := by
  intro a
  by_cases ht : tracked s.config n = true
  · by_cases hna : n = a
    · subst hna
      have hh : histFor s' n = histFor s n ++
          [mkRec s.clock n ((lookupAttr s n).getD Value.none) w] := by
        have hb := histFor_of_history_append s s'
          (mkRec s.clock n ((lookupAttr s n).getD Value.none) w)
          (by simp [hhist, ht]) n
        simpa [mkRec] using hb
      constructor
      · rw [hh, chainFrom_append]
        exact ⟨(h n).1, (h n).2 ht⟩
      · intro _
        rw [hh, lastTo_append]
        simp [mkRec, lookupAttr, hattrs, lookupPairs_assocSet_self]
    · have hh : histFor s' a = histFor s a := by
        have hb := histFor_of_history_append s s'
          (mkRec s.clock n ((lookupAttr s n).getD Value.none) w)
          (by simp [hhist, ht]) a
        simpa [mkRec, hna] using hb
      constructor
      · rw [hh]; exact (h a).1
      · intro hta
        rw [hh]
        have : lookupAttr s' a = lookupAttr s a := by
          simp [lookupAttr, hattrs, lookupPairs_assocSet_ne _ _ _ _ (Ne.symm hna)]
        rw [this]
        exact (h a).2 (by rw [hcfg] at hta; exact hta)
  · have hh : histFor s' a = histFor s a := by
      simp [histFor, hhist, ht]
    by_cases hna : n = a
    · subst hna
      constructor
      · rw [hh]; exact (h n).1
      · intro hta
        rw [hcfg] at hta
        exact absurd hta ht
    · constructor
      · rw [hh]; exact (h a).1
      · intro hta
        rw [hh]
        have : lookupAttr s' a = lookupAttr s a := by
          simp [lookupAttr, hattrs, lookupPairs_assocSet_ne _ _ _ _ (Ne.symm hna)]
        rw [this]
        exact (h a).2 (by rw [hcfg] at hta; exact hta)

theorem chainInv_setAttr (s : State) (n : String) (v : Value)
    (h : ChainInv s) : ChainInv (setAttr s n v) :=
  chainInv_push s n v (setAttr s n v) (setAttr_config s n v)
    (setAttr_attrs s n v) (setAttr_history s n v) h

theorem chainInv_mutateAttr (s : State) (n : String)
    (f : Value → Option Value) (h : ChainInv s) :
    ChainInv (mutateAttr s n f) := by
  cases hl : lookupAttr s n with
  | none => rw [mutateAttr_eq_of_lookup_none s n f hl]; exact h
  | some pre =>
    cases hf : f pre with
    | none => rw [mutateAttr_eq_of_fail s n f pre hl hf]; exact h
    | some post =>
      refine chainInv_push s n post (mutateAttr s n f)
        (mutateAttr_config s n f) (mutateAttr_attrs s n f pre post hl hf)
        ?_ h
      rw [mutateAttr_history s n f pre post hl hf, hl]
      rfl

theorem chainInv_step (s : State) (o : Op) (h : ChainInv s) :
    ChainInv (step s o) := by
  cases o with
  | assign n v => exact chainInv_setAttr s n v h
  | listSet n i v => exact chainInv_mutateAttr s n _ h
  | listAppend n v => exact chainInv_mutateAttr s n _ h
  | listPop n i => exact chainInv_mutateAttr s n _ h
  | listPopLast n => exact chainInv_mutateAttr s n _ h
  | dictSet n k v => exact chainInv_mutateAttr s n _ h
  | dictDel n k => exact chainInv_mutateAttr s n _ h

theorem chainInv_runFrom (s : State) (ops : List Op) (h : ChainInv s) :
    ChainInv (runFrom s ops) := by
  induction ops generalizing s with
  | nil => exact h
  | cons o rest ih => exact ih (step s o) (chainInv_step s o h)

theorem chainInv_init (cfg : Config) : ChainInv (initState cfg) := by
  intro a
  constructor
  · simp [initState, histFor, chainFrom]
  · intro _
    simp [initState, lookupAttr, lookupPairs, histFor, lastTo]

theorem chainInv_run (cfg : Config) (ops : List Op) : ChainInv (run cfg ops) :=
  chainInv_runFrom (initState cfg) ops (chainInv_init cfg)

theorem setAttr_history_append (s : State) (n : String) (v : Value) :
    ∃ t, (setAttr s n v).history = s.history ++ t := by
  by_cases ht : tracked s.config n = true
  · exact ⟨[mkRec s.clock n ((lookupAttr s n).getD Value.none) v],
      by simp [setAttr_history, ht]⟩
  · exact ⟨[], by simp [setAttr_history, ht]⟩

theorem mutateAttr_history_append (s : State) (n : String)
    (f : Value → Option Value) :
    ∃ t, (mutateAttr s n f).history = s.history ++ t := by
  cases hl : lookupAttr s n with
  | none => exact ⟨[], by simp [mutateAttr_eq_of_lookup_none s n f hl]⟩
  | some pre =>
    cases hf : f pre with
    | none => exact ⟨[], by simp [mutateAttr_eq_of_fail s n f pre hl hf]⟩
    | some post =>
      by_cases ht : tracked s.config n = true
      · exact ⟨[mkRec s.clock n pre post],
          by simp [mutateAttr_history s n f pre post hl hf, ht]⟩
      · exact ⟨[], by simp [mutateAttr_history s n f pre post hl hf, ht]⟩

theorem step_history_append (s : State) (o : Op) :
    ∃ t, (step s o).history = s.history ++ t := by
  cases o with
  | assign n v => exact setAttr_history_append s n v
  | listSet n i v => exact mutateAttr_history_append s n _
  | listAppend n v => exact mutateAttr_history_append s n _
  | listPop n i => exact mutateAttr_history_append s n _
  | listPopLast n => exact mutateAttr_history_append s n _
  | dictSet n k v => exact mutateAttr_history_append s n _
  | dictDel n k => exact mutateAttr_history_append s n _

theorem runFrom_history_append (s : State) (ops : List Op) :
    ∃ t, (runFrom s ops).history = s.history ++ t := by
  induction ops generalizing s with
  | nil => exact ⟨[], by simp [runFrom]⟩
  | cons o rest ih =>
    obtain ⟨t1, h1⟩ := step_history_append s o
    obtain ⟨t2, h2⟩ := ih (step s o)
    refine ⟨t1 ++ t2, ?_⟩
    have hrw : runFrom s (o :: rest) = runFrom (step s o) rest := rfl
    rw [hrw, h2, h1, List.append_assoc]

theorem step_config (s : State) (o : Op) : (step s o).config = s.config := by
  cases o with
  | assign n v => exact setAttr_config s n v
  | listSet n i v => exact mutateAttr_config s n _
  | listAppend n v => exact mutateAttr_config s n _
  | listPop n i => exact mutateAttr_config s n _
  | listPopLast n => exact mutateAttr_config s n _
  | dictSet n k v => exact mutateAttr_config s n _
  | dictDel n k => exact mutateAttr_config s n _

theorem setAttr_mem_history (s : State) (n : String) (v : Value)
    (r : ChangeRecord) (hr : r ∈ (setAttr s n v).history) :
    r ∈ s.history ∨ tracked s.config r.attr = true := by
  rw [setAttr_history] at hr
  by_cases ht : tracked s.config n = true
  · rw [if_pos ht] at hr
    rcases List.mem_append.mp hr with h1 | h1
    · exact Or.inl h1
    · right; simp at h1; subst h1; exact ht
  · rw [if_neg ht] at hr; exact Or.inl hr

theorem mutateAttr_mem_history (s : State) (n : String)
    (f : Value → Option Value) (r : ChangeRecord)
    (hr : r ∈ (mutateAttr s n f).history) :
    r ∈ s.history ∨ tracked s.config r.attr = true := by
  cases hl : lookupAttr s n with
  | none =>
    rw [mutateAttr_eq_of_lookup_none s n f hl] at hr; exact Or.inl hr
  | some pre =>
    cases hf : f pre with
    | none =>
      rw [mutateAttr_eq_of_fail s n f pre hl hf] at hr; exact Or.inl hr
    | some post =>
      rw [mutateAttr_history s n f pre post hl hf] at hr
      by_cases ht : tracked s.config n = true
      · rw [if_pos ht] at hr
        rcases List.mem_append.mp hr with h1 | h1
        · exact Or.inl h1
        · right; simp at h1; subst h1; exact ht
      · rw [if_neg ht] at hr; exact Or.inl hr

theorem step_mem_history (s : State) (o : Op) (r : ChangeRecord)
    (hr : r ∈ (step s o).history) :
    r ∈ s.history ∨ tracked s.config r.attr = true := by
  cases o with
  | assign n v => exact setAttr_mem_history s n v r hr
  | listSet n i v => exact mutateAttr_mem_history s n _ r hr
  | listAppend n v => exact mutateAttr_mem_history s n _ r hr
  | listPop n i => exact mutateAttr_mem_history s n _ r hr
  | listPopLast n => exact mutateAttr_mem_history s n _ r hr
  | dictSet n k v => exact mutateAttr_mem_history s n _ r hr
  | dictDel n k => exact mutateAttr_mem_history s n _ r hr

theorem runFrom_mem_history (s : State) (ops : List Op) (r : ChangeRecord)
    (hr : r ∈ (runFrom s ops).history) :
    r ∈ s.history ∨ tracked s.config r.attr = true := by
  induction ops generalizing s with
  | nil => exact Or.inl hr
  | cons o rest ih =>
    rcases ih (step s o) hr with h1 | h1
    · exact step_mem_history s o r h1
    · right; rwa [step_config] at h1

theorem run_mem_history (cfg : Config) (ops : List Op) (r : ChangeRecord)
    (hr : r ∈ (run cfg ops).history) : tracked cfg r.attr = true := by
  rcases runFrom_mem_history (initState cfg) ops r hr with h | h
  · simp [initState] at h
  · simpa [initState] using h

theorem mem_insertKey (ks : List String) (k a : String) :
    a ∈ insertKey ks k ↔ a ∈ ks ∨ a = k := by
  by_cases h : ks.contains k = true
  · have hk : k ∈ ks := by simpa using h
    simp only [insertKey, if_pos h]
    constructor
    · exact Or.inl
    · rintro (h1 | rfl)
      · exact h1
      · exact hk
  · have hk : ¬k ∈ ks := by simpa using h
    simp [insertKey, h, hk, List.mem_append]

theorem mem_keysOf_aux (h : List ChangeRecord) (ks : List String)
    (a : String) :
    (a ∈ h.foldl (fun ks r => insertKey ks r.attr) ks) ↔
      (a ∈ ks ∨ ∃ r ∈ h, r.attr = a) := by
  induction h generalizing ks with
  | nil => simp
  | cons q rest ih =>
    simp only [List.foldl_cons]
    rw [ih (insertKey ks q.attr), mem_insertKey]
    simp only [List.mem_cons]
    constructor
    · rintro ((h1 | h1) | ⟨r, hr, ha⟩)
      · exact Or.inl h1
      · exact Or.inr ⟨q, Or.inl rfl, h1.symm⟩
      · exact Or.inr ⟨r, Or.inr hr, ha⟩
    · rintro (h1 | ⟨r, (rfl | hr), ha⟩)
      · exact Or.inl (Or.inl h1)
      · exact Or.inl (Or.inr ha.symm)
      · exact Or.inr ⟨r, hr, ha⟩

theorem mem_keysOf (h : List ChangeRecord) (a : String) :
    a ∈ keysOf h ↔ ∃ r ∈ h, r.attr = a := by
  simpa [keysOf] using mem_keysOf_aux h [] a

theorem lookupPairs_map_keys {α : Type} (F : String → α) (ks : List String)
    (a : String) :
    lookupPairs (ks.map (fun k => (k, F k))) a =
      if a ∈ ks then some (F a) else Option.none := by
  induction ks with
  | nil => simp [lookupPairs]
  | cons k rest ih =>
    by_cases h : k = a
    · subst h; simp [lookupPairs]
    · simp [lookupPairs, h, ih, Ne.symm h, List.mem_cons]

theorem lookupPairs_attrView (h : List ChangeRecord) (a : String) :
    lookupPairs (attrView h) a =
      if a ∈ keysOf h then some (h.filter (fun r => r.attr == a))
      else Option.none := by
  simpa [attrView] using
    lookupPairs_map_keys (fun k => h.filter (fun r => r.attr == k)) (keysOf h) a

/-- C1: for every tracked attribute of an instrumented instance, after
any sequence of attribute assignments and proxied container mutations,
the attribute's history is a monotone chain — for all i greater than
0, the record at index i has fromVal equal to the toVal of the record
at index i - 1, and the first record has fromVal equal to the absent
marker of the engine (which is Value.none, as the repository tests
pin). -/
theorem C1_history_chain (cfg : Config) (ops : List Op) (a : String) :
    (0 < (histFor (run cfg ops) a).length →
      ((histFor (run cfg ops) a).getD 0 defRec).fromVal = Value.none) ∧
    (∀ i : Nat, 0 < i → i < (histFor (run cfg ops) a).length →
      ((histFor (run cfg ops) a).getD i defRec).fromVal =
        ((histFor (run cfg ops) a).getD (i - 1) defRec).toVal) := by
  have hc := (chainInv_run cfg ops a).1
  constructor
  · intro h0
    exact chainFrom_head Value.none _ hc h0
  · intro i hi hlen
    cases i with
    | zero => exact absurd hi (by simp)
    | succ j => simpa using chainFrom_chain Value.none _ hc j hlen

theorem C1_history_chain_witness :
    ((histFor (run cfgDefault chainOps) "x").getD 0 defRec).fromVal =
      Value.none ∧
    ((histFor (run cfgDefault chainOps) "x").getD 1 defRec).fromVal =
      ((histFor (run cfgDefault chainOps) "x").getD 0 defRec).toVal :=
  ⟨(C1_history_chain cfgDefault chainOps "x").1 (by decide),
   by simpa using
     (C1_history_chain cfgDefault chainOps "x").2 1 (by decide) (by decide)⟩

/-- C2: every successful mutating operation on a tracked (proxied)
container attribute appends exactly one ChangeRecord, whose fromVal is
the whole pre-mutation container value and whose toVal is the whole
post-mutation container value, regardless of how many elements the
call touches. -/
theorem C2_one_record_per_mutation (s : State) (o : Op) (n : String)
    (f : Value → Option Value) (pre post : Value)
    (hm : mutOf o = some (n, f)) (ht : tracked s.config n = true)
    (hl : lookupAttr s n = some pre) (hf : f pre = some post) :
    (step s o).history = s.history ++ [mkRec s.clock n pre post] := by
  cases o with
  | assign m v => simp [mutOf] at hm
  | listSet m i v =>
    simp only [mutOf, Option.some.injEq, Prod.mk.injEq] at hm
    obtain ⟨rfl, rfl⟩ := hm
    simp only [step]
    rw [mutateAttr_history _ _ _ pre post hl hf, if_pos ht]
  | listAppend m v =>
    simp only [mutOf, Option.some.injEq, Prod.mk.injEq] at hm
    obtain ⟨rfl, rfl⟩ := hm
    simp only [step]
    rw [mutateAttr_history _ _ _ pre post hl hf, if_pos ht]
  | listPop m i =>
    simp only [mutOf, Option.some.injEq, Prod.mk.injEq] at hm
    obtain ⟨rfl, rfl⟩ := hm
    simp only [step]
    rw [mutateAttr_history _ _ _ pre post hl hf, if_pos ht]
  | listPopLast m =>
    simp only [mutOf, Option.some.injEq, Prod.mk.injEq] at hm
    obtain ⟨rfl, rfl⟩ := hm
    simp only [step]
    rw [mutateAttr_history _ _ _ pre post hl hf, if_pos ht]
  | dictSet m k v =>
    simp only [mutOf, Option.some.injEq, Prod.mk.injEq] at hm
    obtain ⟨rfl, rfl⟩ := hm
    simp only [step]
    rw [mutateAttr_history _ _ _ pre post hl hf, if_pos ht]
  | dictDel m k =>
    simp only [mutOf, Option.some.injEq, Prod.mk.injEq] at hm
    obtain ⟨rfl, rfl⟩ := hm
    simp only [step]
    rw [mutateAttr_history _ _ _ pre post hl hf, if_pos ht]

theorem C2_one_record_per_mutation_witness :
    (step c2Base (Op.listAppend "xs" (Value.int 2))).history =
      c2Base.history ++ [mkRec c2Base.clock "xs" (Value.list [Value.int 1])
        (Value.list [Value.int 1, Value.int 2])] :=
  C2_one_record_per_mutation c2Base (Op.listAppend "xs" (Value.int 2)) "xs"
    (listAppendF (Value.int 2)) (Value.list [Value.int 1])
    (Value.list [Value.int 1, Value.int 2]) rfl rfl rfl rfl

/-- C3, counterexample: the claim that the first-ever record's fromVal
is a sentinel distinct from every representable value, including None,
is false on this code — the repository tests assert
history[0]["from"] is None, and accordingly the first record of a
first write carries fromVal Value.none, the very value that models a
stored None; a record whose genuine prior value was None carries the
identical fromVal, so the two situations are not distinguishable. -/
theorem C3_counterexample :
    ((run cfgDefault [Op.assign "x" (Value.int 1)]).history.getD 0
        defRec).fromVal = Value.none ∧
    ((run cfgDefault [Op.assign "y" Value.none,
        Op.assign "y" (Value.int 1)]).history.getD 1 defRec).fromVal =
      Value.none :=
  ⟨rfl, rfl⟩

/-- C3, amended: the fromVal of the first-ever ChangeRecord of an
attribute is None (Value.none) — the engine reuses None as its absent
marker, so an absent prior value is represented identically to a prior
value that was None. -/
theorem C3_absent_is_none (cfg : Config) (ops : List Op) (a : String)
    (h0 : 0 < (histFor (run cfg ops) a).length) :
    ((histFor (run cfg ops) a).getD 0 defRec).fromVal = Value.none :=
  chainFrom_head Value.none _ (chainInv_run cfg ops a).1 h0

theorem C3_absent_is_none_witness :
    ((histFor (run cfgDefault [Op.assign "x" (Value.int 1)]) "x").getD 0
      defRec).fromVal = Value.none :=
  C3_absent_is_none cfgDefault [Op.assign "x" (Value.int 1)] "x" (by decide)

/-- C4: previously recorded ChangeRecords are immutable under later
activity — after any further sequence of attribute assignments and
container mutations, the old history is a prefix of the new one and
every record at an index that already existed is unchanged, fromVal
and toVal included. -/
theorem C4_records_immutable (s : State) (ops : List Op) :
    ∃ t, (runFrom s ops).history = s.history ++ t ∧
      ∀ i : Nat, i < s.history.length →
        (runFrom s ops).history.getD i defRec = s.history.getD i defRec := by
  obtain ⟨t, ht⟩ := runFrom_history_append s ops
  refine ⟨t, ht, ?_⟩
  intro i hi
  rw [ht]
  simp [List.getD, List.getElem?_append, hi]

theorem C4_records_immutable_witness :
    (runFrom listStart [Op.listSet "items" 0 (Value.int 10)]).history.getD 0
        defRec = listStart.history.getD 0 defRec := by
  obtain ⟨t, ht, hp⟩ :=
    C4_records_immutable listStart [Op.listSet "items" 0 (Value.int 10)]
  exact hp 0 (by decide)

/-- C5: with no attr argument, format flat returns the full
chronological log (the insertion-ordered flat history) and format attr
returns a mapping from attribute name to that attribute's ordered
record subsequence; every entry of that mapping is exactly the
subsequence of the log concerning its key, and every attribute with a
record appears in it. Each record is a ChangeRecord, whose fields are
time, attr, fromVal and toVal (the library's time, attr, from, to). -/
theorem C5_query_formats (s : State) (a : String) (l : List ChangeRecord) :
    get_change_history s Option.none "flat" =
      Except.ok (QueryResult.flat s.history) ∧
    get_change_history s Option.none "attr" =
      Except.ok (QueryResult.byAttr (attrView s.history)) ∧
    (lookupPairs (attrView s.history) a = some l →
      l = s.history.filter (fun r => r.attr == a)) ∧
    ((∃ r ∈ s.history, r.attr = a) →
      lookupPairs (attrView s.history) a =
        some (s.history.filter (fun r => r.attr == a))) := by
  refine ⟨?_, ?_, ?_, ?_⟩
  · simp [get_change_history]
  · simp [get_change_history]
  · intro hl
    rw [lookupPairs_attrView] at hl
    by_cases hm : a ∈ keysOf s.history
    · rw [if_pos hm] at hl
      exact (Option.some.inj hl).symm
    · rw [if_neg hm] at hl
      simp at hl
  · intro hex
    rw [lookupPairs_attrView, if_pos ((mem_keysOf _ _).mpr hex)]

theorem C5_query_formats_witness :
    get_change_history c5State Option.none "attr" =
      Except.ok (QueryResult.byAttr (attrView c5State.history)) ∧
    lookupPairs (attrView c5State.history) "x" =
      some (c5State.history.filter (fun r => r.attr == "x")) :=
  ⟨(C5_query_formats c5State "x" []).2.1,
   (C5_query_formats c5State "x" []).2.2.2
     ⟨mkRec 0 "x" Value.none (Value.int 1), List.mem_cons_self _ _, rfl⟩⟩

/-- C6: get_change_history fails with an InvalidArgument error exactly
when the format argument is neither flat nor attr (the empty string
included), carrying the message naming the two accepted values; with
format flat or attr it returns a result and does not fail. -/
theorem C6_invalid_format (s : State) (attr : Option String)
    (format : String) :
    (¬(format = "flat" ∨ format = "attr") →
      get_change_history s attr format =
        Except.error (SelfieError.invalidArgument formatErrorMsg)) ∧
    ((format = "flat" ∨ format = "attr") →
      ∃ res : QueryResult,
        get_change_history s attr format = Except.ok res) ∧
    formatErrorMsg = "format must be \x27flat\x27 or \x27attr\x27" := by
  refine ⟨?_, ?_, rfl⟩
  · intro h
    unfold get_change_history
    rw [if_neg h]
  · intro h
    unfold get_change_history
    rw [if_pos h]
    cases attr with
    | some a => exact ⟨QueryResult.flat (histFor s a), rfl⟩
    | none =>
      by_cases hf : format = "flat"
      · rw [if_pos hf]
        exact ⟨QueryResult.flat s.history, rfl⟩
      · rw [if_neg hf]
        exact ⟨QueryResult.byAttr (attrView s.history), rfl⟩

theorem C6_invalid_format_witness :
    get_change_history c5State Option.none "invalid" =
      Except.error (SelfieError.invalidArgument formatErrorMsg) ∧
    get_change_history c5State Option.none "" =
      Except.error (SelfieError.invalidArgument formatErrorMsg) ∧
    ∃ res : QueryResult,
      get_change_history c5State Option.none "flat" = Except.ok res :=
  ⟨(C6_invalid_format c5State Option.none "invalid").1 (by decide),
   (C6_invalid_format c5State Option.none "").1 (by decide),
   (C6_invalid_format c5State Option.none "flat").2.1 (Or.inl rfl)⟩

/-- C7: querying an attribute for which no record exists — never
tracked, never assigned, or entirely unknown — does not fail and
returns the empty sequence; a freshly constructed instance yields the
empty sequence in flat format, the empty mapping in attr format, and
the empty sequence for any specific attribute name. -/
theorem C7_unknown_attr_empty (s : State) (cfg : Config) (a : String) :
    ((∀ r ∈ s.history, r.attr ≠ a) →
      get_change_history s (some a) "flat" =
        Except.ok (QueryResult.flat [])) ∧
    get_change_history (initState cfg) Option.none "flat" =
      Except.ok (QueryResult.flat []) ∧
    get_change_history (initState cfg) Option.none "attr" =
      Except.ok (QueryResult.byAttr []) ∧
    get_change_history (initState cfg) (some a) "flat" =
      Except.ok (QueryResult.flat []) := by
  refine ⟨?_, rfl, rfl, rfl⟩
  intro h
  have hempty : histFor s a = [] :=
    List.filter_eq_nil_iff.mpr (fun r hr => by simp [h r hr])
  unfold get_change_history
  rw [if_pos (Or.inl rfl)]
  simp [hempty]

theorem C7_unknown_attr_empty_witness :
    get_change_history c5State (some "nonexistent") "flat" =
      Except.ok (QueryResult.flat []) ∧
    get_change_history (initState cfgDefault) Option.none "attr" =
      Except.ok (QueryResult.byAttr []) :=
  ⟨(C7_unknown_attr_empty c5State cfgDefault "nonexistent").1 (by decide),
   (C7_unknown_attr_empty c5State cfgDefault "nonexistent").2.2.1⟩

/-- C8: a proxied sequence pop returns the popped element exactly as
the unwrapped operation would, for the no-argument form, an integer
index, and an index-like custom object, while still appending one
ChangeRecord per call: for items = [1,2,3,4,5], the no-argument pop
returns 5 leaving [1,2,3,4], pop 0 returns 1 leaving [2,3,4], and pop
with an index-like object resolving to 0 returns 2 leaving [3,4], the
history carrying one record per call. -/
theorem C8_pop_return_values :
    popRet popStart "items" (-1) = some (Value.int 5) ∧
    lookupAttr popAfterLast "items" =
      some (Value.list [Value.int 1, Value.int 2, Value.int 3, Value.int 4]) ∧
    popRet popAfterLast "items" 0 = some (Value.int 1) ∧
    lookupAttr popAfterZero "items" =
      some (Value.list [Value.int 2, Value.int 3, Value.int 4]) ∧
    popRetIndexLike popAfterZero "items" { __index__ := 0 } =
      some (Value.int 2) ∧
    lookupAttr popAfterIndexLike "items" =
      some (Value.list [Value.int 3, Value.int 4]) ∧
    (histFor popAfterIndexLike "items").map (fun r => r.toVal) =
      [Value.list [Value.int 1, Value.int 2, Value.int 3, Value.int 4,
        Value.int 5],
       Value.list [Value.int 1, Value.int 2, Value.int 3, Value.int 4],
       Value.list [Value.int 2, Value.int 3, Value.int 4],
       Value.list [Value.int 3, Value.int 4]] :=
  ⟨rfl, rfl, rfl, rfl, rfl, rfl, rfl⟩

/-- C9: with track_private false (the default of bare decoration) an
attribute whose name begins with the private underscore convention
produces no record and is absent from every history view, after any
operation sequence; with track_private true a write to such an
attribute appends its record exactly like a public attribute. -/
theorem C9_privacy_filter (ops : List Op) (a : String) (s : State)
    (v : Value) :
    (isPrivateName a = true →
      histFor (run { track_private := false } ops) a = [] ∧
      lookupPairs (attrView (run { track_private := false } ops).history) a =
        Option.none) ∧
    (s.config.track_private = true →
      (setAttr s a v).history = s.history ++
        [mkRec s.clock a ((lookupAttr s a).getD Value.none) v]) := by
  constructor
  · intro hp
    have hnot : ∀ r ∈ (run { track_private := false } ops).history,
        r.attr ≠ a := by
      intro r hr he
      have htr := run_mem_history _ ops r hr
      rw [he] at htr
      simp [tracked, hp] at htr
    constructor
    · exact List.filter_eq_nil_iff.mpr (fun r hr => by simp [hnot r hr])
    · rw [lookupPairs_attrView, if_neg]
      rw [mem_keysOf]
      rintro ⟨r, hr, ha⟩
      exact hnot r hr ha
  · intro htp
    rw [setAttr_history, if_pos (by simp [tracked, htp])]

theorem C9_privacy_filter_witness :
    histFor (run { track_private := false }
      [Op.assign "_p" (Value.int 1)]) "_p" = [] ∧
    (setAttr privBase "_p" (Value.int 2)).history = privBase.history ++
      [mkRec privBase.clock "_p" ((lookupAttr privBase "_p").getD Value.none)
        (Value.int 2)] :=
  ⟨((C9_privacy_filter [Op.assign "_p" (Value.int 1)] "_p" privBase
      (Value.int 2)).1 (by decide)).1,
   (C9_privacy_filter [Op.assign "_p" (Value.int 1)] "_p" privBase
      (Value.int 2)).2 rfl⟩

/-- C10: instances own independent history stores — in a world of
instrumented instances, the state of instance j after any sequence of
world operations is exactly the result of running only the operations
addressed to j on j's own initial state, so operations on any other
instance never append to j's history and j's query results reflect
only j's writes. -/
theorem C10_instance_isolation (w : List State) (ops : List WOp) (j : Nat)
    (s : State) (hj : w[j]? = some s) :
    (runW w ops)[j]? = some (runFrom s (opsFor j ops)) := by
  induction ops generalizing w s with
  | nil => simpa [runW, runFrom] using hj
  | cons wo rest ih =>
    have hrw : runW w (wo :: rest) = runW (stepW w wo) rest := rfl
    rw [hrw]
    cases wo with
    | newInst cfg =>
      have hlt : j < w.length := (List.getElem?_eq_some.mp hj).1
      have hj' : (stepW w (WOp.newInst cfg))[j]? = some s := by
        simp [stepW, List.getElem?_append, hlt, hj]
      have hops : opsFor j (WOp.newInst cfg :: rest) = opsFor j rest := by
        simp [opsFor, List.filterMap_cons]
      rw [hops]
      exact ih _ _ hj'
    | act i o =>
      by_cases hij : i = j
      · subst hij
        have hlt : i < w.length := (List.getElem?_eq_some.mp hj).1
        have hw : stepW w (WOp.act i o) = w.set i (step s o) := by
          simp [stepW, hj]
        have hj' : (w.set i (step s o))[i]? = some (step s o) := by
          simp [List.getElem?_set_self, hlt]
        have hops : opsFor i (WOp.act i o :: rest) = o :: opsFor i rest := by
          simp [opsFor, List.filterMap_cons]
        rw [hw, hops]
        exact ih _ _ hj'
      · have hops : opsFor j (WOp.act i o :: rest) = opsFor j rest := by
          simp [opsFor, List.filterMap_cons, hij]
        rw [hops]
        cases hwi : w[i]? with
        | none =>
          have hw : stepW w (WOp.act i o) = w := by simp [stepW, hwi]
          rw [hw]
          exact ih _ _ hj
        | some si =>
          have hw : stepW w (WOp.act i o) = w.set i (step si o) := by
            simp [stepW, hwi]
          rw [hw]
          refine ih _ _ ?_
          rw [List.getElem?_set_ne hij]
          exact hj

theorem C10_instance_isolation_witness :
    (runW world0 wops0)[0]? =
      some (runFrom (initState cfgDefault) (opsFor 0 wops0)) :=
  C10_instance_isolation world0 wops0 0 (initState cfgDefault) rfl

end Selfie
